import Mathlib

/-!
# Verification of the jquery.tagCloud.js banding algorithm

Shallow embedding of `src/scripts/jquery.tagCloud.js`.

The plugin, per container, does the following (random-weight test mode off):
  1. `weights[i] = parseInt($(e).attr(weightAttribute), 10)` over the tags;
  2. `max = Math.max.apply(Math, weights)`, `min = Math.min.apply(Math, weights)`,
     `divisions = settings.classes.length`, `rangeSize = (max - min) / divisions`;
  3. `rangeValues[0] = min; rangeValues[divisions] = max;`
     `for (j = 1; j < divisions; j++) rangeValues[j] = min + j * rangeSize;`
  4. for each tag, with `$currentWeight = $current.attr(weightAttribute)` (the raw
     attribute string), `for (j = 0; j < divisions; j++)` add
     `classes[j] + ' ' + processedClassName` when
     `$currentWeight >= rangeValues[j] && $currentWeight <= rangeValues[j+1]
      && !$current.hasClass(processedClassName)`.

Modelling decisions:
  * JavaScript numbers are modelled as exact rationals extended with `NaN` and the two
    infinities (`JNum`); IEEE-754 rounding is abstracted away (all claims are
    order-theoretic over small values).
  * The weight attribute string is modelled abstractly (`AttrVal`): either text that is
    a plain decimal numeral denoting the rational `q` (`numStr q`, on which
    `parseInt` yields the integer prefix, i.e. truncation toward zero, and the
    `ToNumber` coercion used by `>=`/`<=` yields `q` itself), or text with no numeric
    prefix (`junk`, on which both yield `NaN`).  Exotic mixed forms such as `"12px"`
    are outside the modelled input domain.
  * A tag is its weight attribute plus its class list; jQuery's `hasClass`/`addClass`
    are membership test and append-if-absent on class tokens.
  * The jQuery collection plumbing (`this.each` over containers, `find`) is dropped:
    one container with its ordered list of tags is modelled.  The `randomWeights`
    branch overwrites weights with random values and is not part of the deterministic
    model; every claim concerns the mode being off.
-/

namespace TagCloud

/-- A JavaScript number as observed by the plugin: an exact rational, `NaN`,
`Infinity` or `-Infinity`. -/
inductive JNum where
  | num (q : ℚ)
  | nan
  | inf
  | ninf
deriving DecidableEq

/-- JavaScript `<=` on numbers: any comparison with `NaN` is false. -/
def jsLe : JNum → JNum → Bool
  | .nan, _ => false
  | _, .nan => false
  | .ninf, _ => true
  | _, .ninf => false
  | _, .inf => true
  | .inf, _ => false
  | .num a, .num b => decide (a ≤ b)

/-- JavaScript `>=` on numbers. -/
def jsGe (a b : JNum) : Bool := jsLe b a

/-- Binary step of `Math.max`: `NaN` is absorbing, otherwise the larger argument. -/
def jsMax2 : JNum → JNum → JNum
  | .nan, _ => .nan
  | _, .nan => .nan
  | .ninf, b => b
  | a, .ninf => a
  | .inf, _ => .inf
  | _, .inf => .inf
  | .num a, .num b => .num (max a b)

/-- Binary step of `Math.min`. -/
def jsMin2 : JNum → JNum → JNum
  | .nan, _ => .nan
  | _, .nan => .nan
  | .inf, b => b
  | a, .inf => a
  | .ninf, _ => .ninf
  | _, .ninf => .ninf
  | .num a, .num b => .num (min a b)

/-- `Math.max.apply(Math, l)`: fold of `jsMax2` from `-Infinity` (`Math.max()`'s value). -/
def jsMaxList (l : List JNum) : JNum := l.foldl jsMax2 .ninf

/-- `Math.min.apply(Math, l)`: fold of `jsMin2` from `Infinity` (`Math.min()`'s value). -/
def jsMinList (l : List JNum) : JNum := l.foldl jsMin2 .inf

/-- JavaScript unary minus. -/
def jsNeg : JNum → JNum
  | .num q => .num (-q)
  | .nan => .nan
  | .inf => .ninf
  | .ninf => .inf

/-- JavaScript `+` on numbers. -/
def jsAdd : JNum → JNum → JNum
  | .nan, _ => .nan
  | _, .nan => .nan
  | .inf, .ninf => .nan
  | .ninf, .inf => .nan
  | .inf, _ => .inf
  | _, .inf => .inf
  | .ninf, _ => .ninf
  | _, .ninf => .ninf
  | .num a, .num b => .num (a + b)

/-- JavaScript `-` on numbers. -/
def jsSub (a b : JNum) : JNum := jsAdd a (jsNeg b)

/-- JavaScript `*` on numbers (`0 * Infinity` is `NaN`). -/
def jsMul : JNum → JNum → JNum
  | .nan, _ => .nan
  | _, .nan => .nan
  | .num a, .num b => .num (a * b)
  | .num a, .inf => if 0 < a then .inf else if a < 0 then .ninf else .nan
  | .inf, .num a => if 0 < a then .inf else if a < 0 then .ninf else .nan
  | .num a, .ninf => if 0 < a then .ninf else if a < 0 then .inf else .nan
  | .ninf, .num a => if 0 < a then .ninf else if a < 0 then .inf else .nan
  | .inf, .inf => .inf
  | .inf, .ninf => .ninf
  | .ninf, .inf => .ninf
  | .ninf, .ninf => .inf

/-- JavaScript `/` on numbers (`x / 0` is a signed infinity, `0 / 0` is `NaN`;
signed zero is not modelled, the divisors arising here are nonnegative). -/
def jsDiv : JNum → JNum → JNum
  | .nan, _ => .nan
  | _, .nan => .nan
  | .num a, .num b =>
      if b = 0 then (if 0 < a then .inf else if a < 0 then .ninf else .nan)
      else .num (a / b)
  | .inf, .num b => if 0 ≤ b then .inf else .ninf
  | .ninf, .num b => if 0 ≤ b then .ninf else .inf
  | .num _, .inf => .num 0
  | .num _, .ninf => .num 0
  | .inf, .inf => .nan
  | .inf, .ninf => .nan
  | .ninf, .inf => .nan
  | .ninf, .ninf => .nan

/-- Truncation toward zero, the effect of `parseInt` on a decimal numeral. -/
def truncQ (q : ℚ) : ℤ := if 0 ≤ q then ⌊q⌋ else ⌈q⌉

/-- The weight attribute's text, abstracted: a plain decimal numeral denoting `q`,
or text with no numeric prefix at all. -/
inductive AttrVal where
  | numStr (q : ℚ)
  | junk
deriving DecidableEq

/-- `parseInt(attr, 10)`: integer prefix of a numeral (truncation toward zero),
`NaN` on non-numeric text. -/
def parseIntAttr : AttrVal → JNum
  | .numStr q => .num (truncQ q)
  | .junk => .nan

/-- The `ToNumber` coercion JavaScript applies to `$currentWeight` (a string) in
`$currentWeight >= rangeValues[j]` and `$currentWeight <= rangeValues[j+1]`. -/
def toNumber : AttrVal → JNum
  | .numStr q => .num q
  | .junk => .nan

/-- One tag element: its weight attribute and its list of CSS class tokens. -/
structure Tag where
  weightAttr : AttrVal
  classes : List String
deriving DecidableEq

/-- The plugin settings used by the classification (`randomWeights` is modelled as
off; `tagSelector` and `weightAttribute` are absorbed into the `Tag` abstraction). -/
structure Settings where
  classes : List String
  processedClassName : String
deriving DecidableEq

/-- The plugin's default settings. -/
def defaultSettings : Settings :=
  { classes := ["tag-cloud-small", "tag-cloud-medium", "tag-cloud-large"],
    processedClassName := "processed" }

/-- jQuery `hasClass`: membership of the token in the class list. -/
def hasClass (t : Tag) (c : String) : Bool := decide (c ∈ t.classes)

/-- jQuery `addClass` with a single token: append it unless already present. -/
def addClass1 (t : Tag) (c : String) : Tag :=
  if c ∈ t.classes then t else { t with classes := t.classes ++ [c] }

/-- `$current.addClass(settings.classes[j] + ' ' + settings.processedClassName)`:
add the band class token, then the processed token. -/
def addBandClasses (t : Tag) (bandClass processedClass : String) : Tag :=
  addClass1 (addClass1 t bandClass) processedClass

/-- The `weights` array: `weights[i] = parseInt($(e).attr(weightAttribute), 10)`. -/
def weights (tags : List Tag) : List JNum :=
  tags.map (fun t => parseIntAttr t.weightAttr)

/-- `rangeSize = (max - min) / divisions`. -/
def rangeSizeOf (s : Settings) (tags : List Tag) : JNum :=
  jsDiv (jsSub (jsMaxList (weights tags)) (jsMinList (weights tags)))
    (JNum.num ((s.classes.length : ℕ) : ℚ))

/-- The `rangeValues` array: index 0 is `min`, index `divisions` is `max`
(`divisions = 0` leaves a one-entry array holding `max`, the second write landing on
index 0), interior entries are `min + j * rangeSize`. -/
def rangeValuesList (mn mx : JNum) (divisions : ℕ) (rangeSize : JNum) : List JNum :=
  if divisions = 0 then [mx]
  else mn :: ((List.range (divisions - 1)).map fun k =>
    jsAdd mn (jsMul (JNum.num ((k + 1 : ℕ) : ℚ)) rangeSize)) ++ [mx]

/-- The `rangeValues` array of a run over the given tags. -/
def rangeValuesOf (s : Settings) (tags : List Tag) : List JNum :=
  rangeValuesList (jsMinList (weights tags)) (jsMaxList (weights tags))
    s.classes.length (rangeSizeOf s tags)

/-- `$currentWeight >= rangeValues[j] && $currentWeight <= rangeValues[j + 1]`
(reading a missing index as `undefined`, which coerces to `NaN`). -/
def matchesBand (rv : List JNum) (w : JNum) (j : ℕ) : Bool :=
  jsGe w (rv.getD j .nan) && jsLe w (rv.getD (j + 1) .nan)

/-- The inner `for (j = 0; j < divisions; j++)` loop over one tag: `fuel` is the
number of remaining iterations, `j` the loop counter, `cur` the (mutated) tag. -/
def classifyLoop (s : Settings) (rv : List JNum) (w : JNum) :
    ℕ → ℕ → Tag → Tag
  | 0, _, cur => cur
  | fuel + 1, j, cur =>
      classifyLoop s rv w fuel (j + 1)
        (if matchesBand rv w j && !(hasClass cur s.processedClassName)
         then addBandClasses cur (s.classes.getD j "") s.processedClassName
         else cur)

/-- Processing of one tag by the second `$tags.each` loop. -/
def classifyTag (s : Settings) (rv : List JNum) (t : Tag) : Tag :=
  classifyLoop s rv (toNumber t.weightAttr) s.classes.length 0 t

/-- `$.fn.tagCloud` on one container (random-weight test mode off): classify every
tag against the range values computed from the tag weights. -/
def tagCloud (s : Settings) (tags : List Tag) : List Tag :=
  tags.map (classifyTag s (rangeValuesOf s tags))

/-- First index `j` with `start ≤ j < start + fuel` satisfying `p`, scanning
upward — the search order of the inner `for` loop. -/
def findFrom (p : ℕ → Bool) : ℕ → ℕ → Option ℕ
  | 0, _ => none
  | fuel + 1, j => if p j then some j else findFrom p fuel (j + 1)

/-- The band index the loop selects for a weight value: the first `j < divisions`
whose range brackets the weight (`none` when no band matches). -/
def bandIndex (s : Settings) (rv : List JNum) (w : JNum) : Option ℕ :=
  findFrom (matchesBand rv w) s.classes.length 0

/-- Engine view of a run: the band index selected for each tag of the set. -/
def assignBands (s : Settings) (tags : List Tag) : List (Option ℕ) :=
  tags.map fun t => bandIndex s (rangeValuesOf s tags) (toNumber t.weightAttr)

/-- Default tag used as the out-of-range placeholder of `List.getD`. -/
def dTag : Tag := { weightAttr := AttrVal.junk, classes := [] }

/-- The rational a numeral attribute denotes (`0` as an unused placeholder on junk). -/
def attrQ : AttrVal → ℚ
  | .numStr q => q
  | .junk => 0

/-- The parsed weight of a tag as a rational, on numeral attributes the value of
`parseInt`. -/
def wq (t : Tag) : ℚ := ((truncQ (attrQ t.weightAttr) : ℤ) : ℚ)

/-! ## Basic lemmas about the JavaScript number operations -/

theorem jsLe_num_num (a b : ℚ) : jsLe (.num a) (.num b) = decide (a ≤ b) := rfl

theorem jsGe_num_num (a b : ℚ) : jsGe (.num a) (.num b) = decide (b ≤ a) := rfl

theorem jsLe_nan_left (b : JNum) : jsLe .nan b = false := by cases b <;> rfl

theorem jsGe_nan_right (a : JNum) : jsGe a .nan = false := by cases a <;> rfl

theorem jsSub_num_num (a b : ℚ) : jsSub (.num a) (.num b) = .num (a - b) := by
  simp [jsSub, jsAdd, jsNeg, sub_eq_add_neg]

theorem jsDiv_num_num_of_ne (a b : ℚ) (hb : b ≠ 0) :
    jsDiv (.num a) (.num b) = .num (a / b) := by
  simp [jsDiv, hb]

theorem jsAdd_num_num (a b : ℚ) : jsAdd (.num a) (.num b) = .num (a + b) := rfl

theorem jsMul_num_num (a b : ℚ) : jsMul (.num a) (.num b) = .num (a * b) := rfl

theorem jsMax2_nan_right (a : JNum) : jsMax2 a .nan = .nan := by cases a <;> rfl

theorem jsMin2_nan_right (a : JNum) : jsMin2 a .nan = .nan := by cases a <;> rfl

theorem foldl_jsMax2_nan (l : List JNum) : l.foldl jsMax2 .nan = .nan := by
  induction l with
  | nil => rfl
  | cons x l ih => simpa [jsMax2] using ih

theorem foldl_jsMin2_nan (l : List JNum) : l.foldl jsMin2 .nan = .nan := by
  induction l with
  | nil => rfl
  | cons x l ih => simpa [jsMin2] using ih

theorem foldl_jsMax2_of_nan_mem (l : List JNum) :
    ∀ acc, .nan ∈ l → l.foldl jsMax2 acc = .nan := by
  induction l with
  | nil => intro acc h; cases h
  | cons x l ih =>
      intro acc h
      rcases List.mem_cons.mp h with rfl | h
      · simpa [jsMax2_nan_right] using foldl_jsMax2_nan l
      · exact ih _ h

theorem foldl_jsMin2_of_nan_mem (l : List JNum) :
    ∀ acc, .nan ∈ l → l.foldl jsMin2 acc = .nan := by
  induction l with
  | nil => intro acc h; cases h
  | cons x l ih =>
      intro acc h
      rcases List.mem_cons.mp h with rfl | h
      · simpa [jsMin2_nan_right] using foldl_jsMin2_nan l
      · exact ih _ h

theorem foldl_jsMax2_num (l : List ℚ) :
    ∀ a : ℚ, (l.map JNum.num).foldl jsMax2 (.num a) = .num (l.foldl max a) := by
  induction l with
  | nil => intro a; rfl
  | cons q l ih => intro a; simpa [jsMax2] using ih (max a q)

theorem foldl_jsMin2_num (l : List ℚ) :
    ∀ a : ℚ, (l.map JNum.num).foldl jsMin2 (.num a) = .num (l.foldl min a) := by
  induction l with
  | nil => intro a; rfl
  | cons q l ih => intro a; simpa [jsMin2] using ih (min a q)

/-! ## Folded `min`/`max` over rationals -/

theorem foldl_max_init_le (l : List ℚ) : ∀ a : ℚ, a ≤ l.foldl max a := by
  induction l with
  | nil => intro a; exact le_refl a
  | cons x l ih => intro a; exact le_trans (le_max_left a x) (ih (max a x))

theorem foldl_min_le_init (l : List ℚ) : ∀ a : ℚ, l.foldl min a ≤ a := by
  induction l with
  | nil => intro a; exact le_refl a
  | cons x l ih => intro a; exact le_trans (ih (min a x)) (min_le_left a x)

theorem le_foldl_max_of_mem (l : List ℚ) :
    ∀ a x, x ∈ l → x ≤ l.foldl max a := by
  induction l with
  | nil => intro a x h; cases h
  | cons y l ih =>
      intro a x h
      rcases List.mem_cons.mp h with rfl | h
      · exact le_trans (le_max_right a x) (foldl_max_init_le l (max a x))
      · exact ih (max a y) x h

theorem foldl_min_le_of_mem (l : List ℚ) :
    ∀ a x, x ∈ l → l.foldl min a ≤ x := by
  induction l with
  | nil => intro a x h; cases h
  | cons y l ih =>
      intro a x h
      rcases List.mem_cons.mp h with rfl | h
      · exact le_trans (foldl_min_le_init l (min a x)) (min_le_right a x)
      · exact ih (min a y) x h

theorem foldl_max_choice (l : List ℚ) :
    ∀ a : ℚ, l.foldl max a = a ∨ l.foldl max a ∈ l := by
  induction l with
  | nil => intro a; exact Or.inl rfl
  | cons x l ih =>
      intro a
      rcases ih (max a x) with h | h
      · rcases max_choice a x with hm | hm
        · exact Or.inl (by rw [List.foldl_cons, h, hm])
        · exact Or.inr (by rw [List.foldl_cons, h, hm]; exact List.mem_cons_self x l)
      · exact Or.inr (List.mem_cons_of_mem x h)

theorem foldl_min_choice (l : List ℚ) :
    ∀ a : ℚ, l.foldl min a = a ∨ l.foldl min a ∈ l := by
  induction l with
  | nil => intro a; exact Or.inl rfl
  | cons x l ih =>
      intro a
      rcases ih (min a x) with h | h
      · rcases min_choice a x with hm | hm
        · exact Or.inl (by rw [List.foldl_cons, h, hm])
        · exact Or.inr (by rw [List.foldl_cons, h, hm]; exact List.mem_cons_self x l)
      · exact Or.inr (List.mem_cons_of_mem x h)

/-! ## Characterization of the ascending first-match search -/

theorem findFrom_some_iff (p : ℕ → Bool) :
    ∀ fuel j k, findFrom p fuel j = some k ↔
      (j ≤ k ∧ k < j + fuel ∧ p k = true ∧ ∀ i, j ≤ i → i < k → p i = false) := by
  intro fuel
  induction fuel with
  | zero =>
      intro j k
      constructor
      · intro h; cases h
      · intro ⟨h1, h2, _, _⟩; omega
  | succ n ih =>
      intro j k
      by_cases hp : p j = true
      · simp only [findFrom, hp, if_true]
        constructor
        · intro h
          injection h with h
          subst h
          exact ⟨le_refl j, by omega, hp, fun i h1 h2 => absurd h2 (by omega)⟩
        · intro ⟨h1, _, _, h4⟩
          rcases Nat.lt_or_ge j k with hlt | hge
          · exact absurd hp (by rw [h4 j (le_refl j) hlt]; simp)
          · have : k = j := le_antisymm (by omega) h1
            rw [this]
      · simp only [findFrom, hp, Bool.false_eq_true, if_false]
        rw [ih (j + 1) k]
        constructor
        · intro ⟨h1, h2, h3, h4⟩
          refine ⟨by omega, by omega, h3, fun i hi1 hi2 => ?_⟩
          rcases Nat.eq_or_lt_of_le hi1 with rfl | hgt
          · exact Bool.eq_false_iff.mpr hp
          · exact h4 i (by omega) hi2
        · intro ⟨h1, h2, h3, h4⟩
          have hkj : k ≠ j := by
            intro h
            subst h
            exact hp h3
          exact ⟨by omega, by omega, h3, fun i hi1 hi2 => h4 i (by omega) hi2⟩

theorem findFrom_none_iff (p : ℕ → Bool) :
    ∀ fuel j, findFrom p fuel j = none ↔
      ∀ i, j ≤ i → i < j + fuel → p i = false := by
  intro fuel
  induction fuel with
  | zero =>
      intro j
      constructor
      · intro _ i h1 h2; omega
      · intro _; rfl
  | succ n ih =>
      intro j
      by_cases hp : p j = true
      · simp only [findFrom, hp, if_true]
        constructor
        · intro h; cases h
        · intro h
          exact absurd (h j (le_refl j) (by omega)) (by rw [hp]; simp)
      · simp only [findFrom, hp, Bool.false_eq_true, if_false]
        rw [ih (j + 1)]
        constructor
        · intro h i h1 h2
          rcases Nat.eq_or_lt_of_le h1 with rfl | hgt
          · exact Bool.eq_false_iff.mpr hp
          · exact h i (by omega) (by omega)
        · intro h i h1 h2
          exact h i (by omega) (by omega)

/-! ## List indexing helpers -/

theorem getD_map_of_lt {α β : Type} (f : α → β) (dA : α) (dB : β) :
    ∀ (l : List α) (i : ℕ), i < l.length → (l.map f).getD i dB = f (l.getD i dA) := by
  intro l
  induction l with
  | nil => intro i h; simp at h
  | cons x l ih =>
      intro i h
      cases i with
      | zero => rfl
      | succ i => exact ih i (by simpa using h)

theorem getD_mem_of_lt {α : Type} (d : α) :
    ∀ (l : List α) (i : ℕ), i < l.length → l.getD i d ∈ l := by
  intro l
  induction l with
  | nil => intro i h; simp at h
  | cons x l ih =>
      intro i h
      cases i with
      | zero => exact List.mem_cons_self x l
      | succ i => exact List.mem_cons_of_mem x (ih i (by simpa using h))

theorem getD_of_all_eq {α : Type} (d : α) :
    ∀ (l : List α) (i : ℕ), (∀ x ∈ l, x = d) → l.getD i d = d := by
  intro l
  induction l with
  | nil => intro i _; cases i <;> rfl
  | cons x l ih =>
      intro i h
      cases i with
      | zero => exact h x (List.mem_cons_self x l)
      | succ i => exact ih i fun y hy => h y (List.mem_cons_of_mem x hy)

theorem getD_append_of_lt {α : Type} (d : α) :
    ∀ (L : List α) (M : List α) (i : ℕ), i < L.length →
      (L ++ M).getD i d = L.getD i d := by
  intro L
  induction L with
  | nil => intro M i h; simp at h
  | cons x L ih =>
      intro M i h
      cases i with
      | zero => rfl
      | succ i => exact ih M i (by simpa using h)

theorem getD_append_length {α : Type} (d : α) :
    ∀ (L : List α) (x : α), (L ++ [x]).getD L.length d = x := by
  intro L
  induction L with
  | nil => intro x; rfl
  | cons y L ih => intro x; exact ih x

theorem getD_map_range {α : Type} (d : α) (g : ℕ → α) :
    ∀ (n : ℕ) (k : ℕ), k < n → ((List.range n).map g).getD k d = g k := by
  intro n
  induction n with
  | zero => intro k h; omega
  | succ n ih =>
      intro k h
      rw [List.range_succ, List.map_append]
      rcases Nat.lt_or_ge k n with hk | hk
      · rw [getD_append_of_lt d _ _ k (by simpa using hk)]
        exact ih k hk
      · have hkn : k = n := by omega
        subst hkn
        have hlen : ((List.range k).map g).length = k := by simp
        calc ((List.range k).map g ++ [g k]).getD k d
            = ((List.range k).map g ++ [g k]).getD ((List.range k).map g).length d := by
              rw [hlen]
          _ = g k := getD_append_length d _ _

/-! ## Structure of the classification loop -/

theorem hasClass_addBandClasses (t : Tag) (c p : String) :
    hasClass (addBandClasses t c p) p = true := by
  unfold addBandClasses addClass1 hasClass
  split_ifs <;> simp_all

theorem classifyLoop_processed (s : Settings) (rv : List JNum) (w : JNum) :
    ∀ fuel j cur, hasClass cur s.processedClassName = true →
      classifyLoop s rv w fuel j cur = cur := by
  intro fuel
  induction fuel with
  | zero => intro j cur _; rfl
  | succ n ih =>
      intro j cur h
      simp only [classifyLoop, h, Bool.not_true, Bool.and_false, Bool.false_eq_true,
        if_false]
      exact ih (j + 1) cur h

theorem classifyLoop_of_matches_false (s : Settings) (rv : List JNum) (w : JNum)
    (hm : ∀ k, matchesBand rv w k = false) :
    ∀ fuel j cur, classifyLoop s rv w fuel j cur = cur := by
  intro fuel
  induction fuel with
  | zero => intro j cur; rfl
  | succ n ih =>
      intro j cur
      simp only [classifyLoop, hm j, Bool.false_and, Bool.false_eq_true, if_false]
      exact ih (j + 1) cur

theorem classifyLoop_eq_findFrom (s : Settings) (rv : List JNum) (w : JNum) :
    ∀ fuel j cur, hasClass cur s.processedClassName = false →
      classifyLoop s rv w fuel j cur =
        match findFrom (matchesBand rv w) fuel j with
        | none => cur
        | some k => addBandClasses cur (s.classes.getD k "") s.processedClassName := by
  intro fuel
  induction fuel with
  | zero => intro j cur _; rfl
  | succ n ih =>
      intro j cur h
      by_cases hm : matchesBand rv w j = true
      · have hcond : (matchesBand rv w j && !(hasClass cur s.processedClassName)) = true := by
          rw [hm, h]; rfl
        simp only [classifyLoop, hcond, if_true]
        rw [classifyLoop_processed s rv w n (j + 1) _ (hasClass_addBandClasses cur _ _)]
        simp [findFrom, hm]
      · have hm' : matchesBand rv w j = false := Bool.eq_false_iff.mpr hm
        have hcond : (matchesBand rv w j && !(hasClass cur s.processedClassName)) = false := by
          rw [hm']; rfl
        simp only [classifyLoop, hcond, Bool.false_eq_true, if_false]
        rw [ih (j + 1) cur h]
        simp [findFrom, hm']

theorem classifyTag_eq (s : Settings) (rv : List JNum) (t : Tag)
    (h : hasClass t s.processedClassName = false) :
    classifyTag s rv t =
      match bandIndex s rv (toNumber t.weightAttr) with
      | none => t
      | some k => addBandClasses t (s.classes.getD k "") s.processedClassName := by
  unfold classifyTag bandIndex
  exact classifyLoop_eq_findFrom s rv (toNumber t.weightAttr) s.classes.length 0 t h

/-! ## The boundary array -/

theorem rangeValuesList_length (mn mx rs : JNum) (d : ℕ) (hd : 0 < d) :
    (rangeValuesList mn mx d rs).length = d + 1 := by
  unfold rangeValuesList
  rw [if_neg (by omega)]
  simp
  omega

theorem rangeValuesList_getD_zero (mn mx rs : JNum) (d : ℕ) (hd : 0 < d) :
    (rangeValuesList mn mx d rs).getD 0 .nan = mn := by
  unfold rangeValuesList
  rw [if_neg (by omega)]
  rfl

theorem getD_append_eq_length {α : Type} (d : α) (L : List α) (x : α) (i : ℕ)
    (h : i = L.length) : (L ++ [x]).getD i d = x := by
  subst h
  exact getD_append_length d L x

theorem rangeValuesList_getD_last (mn mx rs : JNum) (d : ℕ) (hd : 0 < d) :
    (rangeValuesList mn mx d rs).getD d .nan = mx := by
  unfold rangeValuesList
  rw [if_neg (by omega)]
  exact getD_append_eq_length _ _ _ _ (by simp; omega)

theorem rangeValuesList_getD_interior (mn mx rs : JNum) (d j : ℕ)
    (hj0 : 0 < j) (hjd : j < d) :
    (rangeValuesList mn mx d rs).getD j .nan =
      jsAdd mn (jsMul (JNum.num ((j : ℕ) : ℚ)) rs) := by
  obtain ⟨i, rfl⟩ : ∃ i, j = i + 1 := ⟨j - 1, by omega⟩
  unfold rangeValuesList
  rw [if_neg (by omega)]
  have hlt : i + 1 < (mn :: (List.range (d - 1)).map (fun k =>
      jsAdd mn (jsMul (JNum.num ((k + 1 : ℕ) : ℚ)) rs))).length := by
    simp
    omega
  rw [getD_append_of_lt _ _ _ _ hlt, List.getD_cons_succ]
  exact getD_map_range _ _ _ i (by omega)

/-! ## Weights, minimum and maximum of a run -/

theorem weights_eq_map (tags : List Tag)
    (hall : ∀ t ∈ tags, ∃ q, t.weightAttr = .numStr q) :
    weights tags = (tags.map wq).map JNum.num := by
  unfold weights
  rw [List.map_map]
  apply List.map_congr_left
  intro t ht
  rcases hall t ht with ⟨q, hq⟩
  simp [Function.comp, parseIntAttr, hq, wq, attrQ]

theorem minMax_context (tags : List Tag) (hne : tags ≠ [])
    (hall : ∀ t ∈ tags, ∃ q, t.weightAttr = .numStr q) :
    ∃ mnq mxq : ℚ,
      jsMinList (weights tags) = .num mnq ∧
      jsMaxList (weights tags) = .num mxq ∧
      (∀ t ∈ tags, mnq ≤ wq t ∧ wq t ≤ mxq) ∧
      (∃ t ∈ tags, wq t = mnq) ∧
      (∃ t ∈ tags, wq t = mxq) ∧
      mnq ≤ mxq := by
  obtain ⟨t0, rest, rfl⟩ : ∃ t0 rest, tags = t0 :: rest := by
    cases tags with
    | nil => exact absurd rfl hne
    | cons a l => exact ⟨a, l, rfl⟩
  refine ⟨(rest.map wq).foldl min (wq t0), (rest.map wq).foldl max (wq t0),
    ?_, ?_, ?_, ?_, ?_, ?_⟩
  · rw [weights_eq_map _ hall]
    simp only [List.map_cons, List.foldl_cons]
    exact foldl_jsMin2_num (rest.map wq) (wq t0)
  · rw [weights_eq_map _ hall]
    simp only [List.map_cons, List.foldl_cons]
    exact foldl_jsMax2_num (rest.map wq) (wq t0)
  · intro t ht
    rcases List.mem_cons.mp ht with rfl | ht
    · exact ⟨foldl_min_le_init _ _, foldl_max_init_le _ _⟩
    · exact ⟨foldl_min_le_of_mem _ _ _ (List.mem_map_of_mem wq ht),
        le_foldl_max_of_mem _ _ _ (List.mem_map_of_mem wq ht)⟩
  · rcases foldl_min_choice (rest.map wq) (wq t0) with h | h
    · exact ⟨t0, List.mem_cons_self t0 rest, h.symm⟩
    · rcases List.mem_map.mp h with ⟨t, ht, hw⟩
      exact ⟨t, List.mem_cons_of_mem t0 ht, hw⟩
  · rcases foldl_max_choice (rest.map wq) (wq t0) with h | h
    · exact ⟨t0, List.mem_cons_self t0 rest, h.symm⟩
    · rcases List.mem_map.mp h with ⟨t, ht, hw⟩
      exact ⟨t, List.mem_cons_of_mem t0 ht, hw⟩
  · exact le_trans (foldl_min_le_init _ _) (foldl_max_init_le _ _)

theorem jsMinList_nan (tags : List Tag) (h : ∃ t ∈ tags, t.weightAttr = .junk) :
    jsMinList (weights tags) = .nan := by
  rcases h with ⟨t, ht, hj⟩
  apply foldl_jsMin2_of_nan_mem
  unfold weights
  exact List.mem_map.mpr ⟨t, ht, by rw [hj]; rfl⟩

theorem jsMaxList_nan (tags : List Tag) (h : ∃ t ∈ tags, t.weightAttr = .junk) :
    jsMaxList (weights tags) = .nan := by
  rcases h with ⟨t, ht, hj⟩
  apply foldl_jsMax2_of_nan_mem
  unfold weights
  exact List.mem_map.mpr ⟨t, ht, by rw [hj]; rfl⟩

theorem rangeValuesOf_nan (s : Settings) (tags : List Tag)
    (h : ∃ t ∈ tags, t.weightAttr = .junk) :
    ∀ j, (rangeValuesOf s tags).getD j .nan = .nan := by
  intro j
  apply getD_of_all_eq
  intro x hx
  have hrs : rangeSizeOf s tags = .nan := by
    unfold rangeSizeOf
    rw [jsMinList_nan _ h, jsMaxList_nan _ h]
    rfl
  unfold rangeValuesOf at hx
  rw [jsMinList_nan _ h, jsMaxList_nan _ h, hrs] at hx
  unfold rangeValuesList at hx
  by_cases hd : s.classes.length = 0
  · rw [if_pos hd] at hx
    simpa using hx
  · rw [if_neg hd] at hx
    rcases List.mem_cons.mp hx with rfl | hx
    · rfl
    rcases List.mem_append.mp hx with hx | hx
    · rcases List.mem_map.mp hx with ⟨k, _, rfl⟩
      rfl
    · simpa using hx

/-! ## The band comparison -/

theorem matchesBand_of_nan (rv : List JNum) (w : JNum) (j : ℕ)
    (h : rv.getD j .nan = .nan) : matchesBand rv w j = false := by
  unfold matchesBand
  rw [h, jsGe_nan_right, Bool.false_and]

theorem matchesBand_num (rv : List JNum) (q bj bj1 : ℚ) (j : ℕ)
    (hj : rv.getD j .nan = .num bj) (hj1 : rv.getD (j + 1) .nan = .num bj1) :
    matchesBand rv (.num q) j = (decide (bj ≤ q) && decide (q ≤ bj1)) := by
  unfold matchesBand
  rw [hj, hj1]
  rfl

theorem rangeValuesOf_getD_num (s : Settings) (tags : List Tag) (mnq mxq : ℚ)
    (hd : 0 < s.classes.length)
    (hmn : jsMinList (weights tags) = .num mnq)
    (hmx : jsMaxList (weights tags) = .num mxq) :
    ∀ j, j ≤ s.classes.length →
      (rangeValuesOf s tags).getD j .nan =
        .num (mnq + (j : ℚ) * ((mxq - mnq) / (s.classes.length : ℚ))) := by
  intro j hj
  have hdq : ((s.classes.length : ℕ) : ℚ) ≠ 0 := Nat.cast_ne_zero.mpr (by omega)
  have hrs : rangeSizeOf s tags =
      .num ((mxq - mnq) / ((s.classes.length : ℕ) : ℚ)) := by
    unfold rangeSizeOf
    rw [hmx, hmn, jsSub_num_num, jsDiv_num_num_of_ne _ _ hdq]
  unfold rangeValuesOf
  rw [hmn, hmx, hrs]
  by_cases hj0 : j = 0
  · subst hj0
    rw [rangeValuesList_getD_zero _ _ _ _ hd]
    norm_num
  · by_cases hjd : j = s.classes.length
    · subst hjd
      rw [rangeValuesList_getD_last _ _ _ _ hd]
      congr 1
      have h2 : ((s.classes.length : ℕ) : ℚ) *
          ((mxq - mnq) / ((s.classes.length : ℕ) : ℚ)) = mxq - mnq := by
        field_simp
      rw [h2]
      ring
    · rw [rangeValuesList_getD_interior _ _ _ _ j (by omega) (by omega)]
      rw [jsMul_num_num, jsAdd_num_num]

/-! ## Whole-run helpers -/

theorem truncQ_intCast (z : ℤ) : truncQ ((z : ℤ) : ℚ) = z := by
  unfold truncQ
  split_ifs with h
  · exact Int.floor_intCast z
  · exact Int.ceil_intCast z

theorem wq_intCast (t : Tag) (z : ℤ) (h : t.weightAttr = .numStr ((z : ℤ) : ℚ)) :
    wq t = (z : ℚ) := by
  unfold wq attrQ
  rw [h]
  rw [truncQ_intCast]

theorem tagCloud_eq_self_of_junk (s : Settings) (tags : List Tag)
    (h : ∃ t ∈ tags, t.weightAttr = .junk) : tagCloud s tags = tags := by
  unfold tagCloud
  have hmap : ∀ t ∈ tags, classifyTag s (rangeValuesOf s tags) t = t := by
    intro t _
    unfold classifyTag
    apply classifyLoop_of_matches_false
    intro k
    exact matchesBand_of_nan _ _ k (rangeValuesOf_nan s tags h k)
  calc tags.map (classifyTag s (rangeValuesOf s tags))
      = tags.map id := List.map_congr_left hmap
    _ = tags := List.map_id tags

theorem tagCloud_eq_self_of_processed (s : Settings) (tags : List Tag)
    (h : ∀ t ∈ tags, hasClass t s.processedClassName = true) :
    tagCloud s tags = tags := by
  unfold tagCloud
  have hmap : ∀ t ∈ tags, classifyTag s (rangeValuesOf s tags) t = t := by
    intro t ht
    unfold classifyTag
    exact classifyLoop_processed s _ _ _ 0 t (h t ht)
  calc tags.map (classifyTag s (rangeValuesOf s tags))
      = tags.map id := List.map_congr_left hmap
    _ = tags := List.map_id tags

theorem tagCloud_eq_self_of_no_classes (s : Settings) (tags : List Tag)
    (h : s.classes = []) : tagCloud s tags = tags := by
  unfold tagCloud
  have hlen : s.classes.length = 0 := by rw [h]; rfl
  have hmap : ∀ t ∈ tags, classifyTag s (rangeValuesOf s tags) t = t := by
    intro t _
    unfold classifyTag
    rw [hlen]
    rfl
  calc tags.map (classifyTag s (rangeValuesOf s tags))
      = tags.map id := List.map_congr_left hmap
    _ = tags := List.map_id tags

theorem assignBands_getD (s : Settings) (tags : List Tag) (i : ℕ)
    (hi : i < tags.length) :
    (assignBands s tags).getD i none =
      bandIndex s (rangeValuesOf s tags) (toNumber ((tags.getD i dTag).weightAttr)) := by
  unfold assignBands
  exact getD_map_of_lt _ dTag none tags i hi

theorem tagCloud_getD (s : Settings) (tags : List Tag) (i : ℕ)
    (hi : i < tags.length) :
    (tagCloud s tags).getD i dTag =
      classifyTag s (rangeValuesOf s tags) (tags.getD i dTag) := by
  unfold tagCloud
  exact getD_map_of_lt _ dTag dTag tags i hi

theorem findFrom_first (p : ℕ → Bool) (fuel j : ℕ) (hf : 0 < fuel)
    (h : p j = true) : findFrom p fuel j = some j := by
  obtain ⟨n, rfl⟩ : ∃ n, fuel = n + 1 := ⟨fuel - 1, by omega⟩
  simp [findFrom, h]

theorem exists_bracket (f : ℕ → ℚ) (z : ℚ) :
    ∀ d, 0 < d → f 0 ≤ z → z ≤ f d → ∃ j, j < d ∧ f j ≤ z ∧ z ≤ f (j + 1) := by
  intro d
  induction d with
  | zero => intro h; omega
  | succ n ih =>
      intro _ h0 hd
      by_cases hn : n = 0
      · subst hn
        exact ⟨0, by omega, h0, hd⟩
      · by_cases hzn : z ≤ f n
        · obtain ⟨j, hj, h1, h2⟩ := ih (by omega) h0 hzn
          exact ⟨j, by omega, h1, h2⟩
        · exact ⟨n, by omega, le_of_lt (lt_of_not_le hzn), hd⟩

/-! ## Claims -/

/-- C6: running the classification again on a tag set whose tags already carry the
processed marker changes nothing — no assignment is altered or added. -/
theorem c6_rerun_on_processed_is_noop (s : Settings) (tags : List Tag)
    (h : ∀ t ∈ tags, hasClass t s.processedClassName = true) :
    tagCloud s tags = tags :=
  tagCloud_eq_self_of_processed s tags h

/-- C6 witness: a concrete already-processed tag is returned unchanged. -/
theorem c6_witness :
    tagCloud defaultSettings [⟨.numStr 5, ["tag-cloud-small", "processed"]⟩] =
      [⟨.numStr 5, ["tag-cloud-small", "processed"]⟩] :=
  c6_rerun_on_processed_is_noop defaultSettings _ (by decide)

/-- C7 counterexample: on malformed input the code reports nothing: the empty tag
set yields the empty output and a non-numeric weight leaves the tag untouched —
the run completes normally, there is no InvalidInput condition anywhere in the
code, so the claimed error report does not happen. -/
theorem c7_counterexample :
    tagCloud defaultSettings ([] : List Tag) = [] ∧
    tagCloud defaultSettings [⟨.junk, []⟩] = [⟨.junk, []⟩] :=
  ⟨rfl, by with_unfolding_all decide⟩

/-- C7 (amended): on every malformed input — empty tag set, empty class list
(band count zero), or an unparsable weight — the run silently returns every tag
unchanged: no error is reported and no partial classification is produced. -/
theorem c7_malformed_input_silent_noop (s : Settings) (tags : List Tag)
    (h : tags = [] ∨ s.classes = [] ∨ ∃ t ∈ tags, t.weightAttr = .junk) :
    tagCloud s tags = tags := by
  rcases h with rfl | h | h
  · rfl
  · exact tagCloud_eq_self_of_no_classes s tags h
  · exact tagCloud_eq_self_of_junk s tags h

/-- C7 witness: a set containing an unparsable weight is returned unchanged. -/
theorem c7_witness :
    tagCloud defaultSettings [⟨.junk, []⟩, ⟨.numStr 7, []⟩] =
      [⟨.junk, []⟩, ⟨.numStr 7, []⟩] :=
  c7_malformed_input_silent_noop defaultSettings _
    (Or.inr (Or.inr ⟨⟨.junk, []⟩, List.mem_cons_self _ _, rfl⟩))

/-- C9: the documented scenario — weights 11, 38, 87 with the three default
classes give boundaries 11, 109/3 (= 36.33…), 185/3 (= 61.66…), 87, bands
0, 1, 2, and the documented output markup. -/
theorem c9_documented_scenario :
    rangeValuesOf defaultSettings
        [⟨.numStr 11, []⟩, ⟨.numStr 38, []⟩, ⟨.numStr 87, []⟩] =
      [.num 11, .num (109 / 3), .num (185 / 3), .num 87] ∧
    assignBands defaultSettings
        [⟨.numStr 11, []⟩, ⟨.numStr 38, []⟩, ⟨.numStr 87, []⟩] =
      [some 0, some 1, some 2] ∧
    tagCloud defaultSettings [⟨.numStr 11, []⟩, ⟨.numStr 38, []⟩, ⟨.numStr 87, []⟩] =
      [⟨.numStr 11, ["tag-cloud-small", "processed"]⟩,
       ⟨.numStr 38, ["tag-cloud-medium", "processed"]⟩,
       ⟨.numStr 87, ["tag-cloud-large", "processed"]⟩] := by
  refine ⟨?_, ?_, ?_⟩ <;> with_unfolding_all decide

/-- C10: if any tag's weight fails to parse (random-weight mode off), the computed
minimum and maximum are NaN, every band comparison fails, and the whole run is a
complete no-op: no tag receives a band class or the processed marker. -/
theorem c10_unparsable_weight_total_noop (s : Settings) (tags : List Tag)
    (h : ∃ t ∈ tags, t.weightAttr = .junk) :
    jsMinList (weights tags) = .nan ∧ jsMaxList (weights tags) = .nan ∧
    tagCloud s tags = tags :=
  ⟨jsMinList_nan tags h, jsMaxList_nan tags h, tagCloud_eq_self_of_junk s tags h⟩

/-- C10 witness: one unparsable weight next to a numeric one suppresses the whole
classification. -/
theorem c10_witness :
    jsMinList (weights [⟨.numStr 3, []⟩, ⟨.junk, []⟩]) = .nan ∧
    jsMaxList (weights [⟨.numStr 3, []⟩, ⟨.junk, []⟩]) = .nan ∧
    tagCloud defaultSettings [⟨.numStr 3, []⟩, ⟨.junk, []⟩] =
      [⟨.numStr 3, []⟩, ⟨.junk, []⟩] :=
  c10_unparsable_weight_total_noop defaultSettings _
    ⟨⟨.junk, []⟩, List.mem_cons_of_mem _ (List.mem_cons_self _ _), rfl⟩

/-- C8: when the computed minimum and maximum of a run are the numbers `mnq` and
`mxq` and the class list is non-empty, the boundary array has `bandCount + 1`
entries, entry 0 is the minimum, entry `bandCount` is the maximum, and every
interior entry `j` is `min + j * (max - min) / bandCount`. -/
theorem c8_boundary_array_shape (s : Settings) (tags : List Tag) (mnq mxq : ℚ)
    (hd : 0 < s.classes.length)
    (hmn : jsMinList (weights tags) = .num mnq)
    (hmx : jsMaxList (weights tags) = .num mxq) :
    (rangeValuesOf s tags).length = s.classes.length + 1 ∧
    (rangeValuesOf s tags).getD 0 .nan = .num mnq ∧
    (rangeValuesOf s tags).getD s.classes.length .nan = .num mxq ∧
    (∀ j, 0 < j → j < s.classes.length →
      (rangeValuesOf s tags).getD j .nan =
        .num (mnq + (j : ℚ) * ((mxq - mnq) / (s.classes.length : ℚ)))) := by
  refine ⟨?_, ?_, ?_, ?_⟩
  · unfold rangeValuesOf
    exact rangeValuesList_length _ _ _ _ hd
  · unfold rangeValuesOf
    rw [rangeValuesList_getD_zero _ _ _ _ hd, hmn]
  · unfold rangeValuesOf
    rw [rangeValuesList_getD_last _ _ _ _ hd, hmx]
  · intro j hj0 hjd
    exact rangeValuesOf_getD_num s tags mnq mxq hd hmn hmx j (by omega)

/-- C8 witness: the boundary array of the two weights 4 and 9 under the default
three classes. -/
theorem c8_witness :
    (rangeValuesOf defaultSettings [⟨.numStr 4, []⟩, ⟨.numStr 9, []⟩]).length =
      defaultSettings.classes.length + 1 ∧
    (rangeValuesOf defaultSettings [⟨.numStr 4, []⟩, ⟨.numStr 9, []⟩]).getD 0 .nan =
      .num 4 ∧
    (rangeValuesOf defaultSettings
        [⟨.numStr 4, []⟩, ⟨.numStr 9, []⟩]).getD defaultSettings.classes.length .nan =
      .num 9 ∧
    (∀ j, 0 < j → j < defaultSettings.classes.length →
      (rangeValuesOf defaultSettings [⟨.numStr 4, []⟩, ⟨.numStr 9, []⟩]).getD j .nan =
        .num (4 + (j : ℚ) * ((9 - 4) / (defaultSettings.classes.length : ℚ)))) :=
  c8_boundary_array_shape defaultSettings [⟨.numStr 4, []⟩, ⟨.numStr 9, []⟩] 4 9
    (by decide) (by with_unfolding_all decide) (by with_unfolding_all decide)

/-- C1 counterexample: with the finite numeric weights 1 and 2.9 (band count 3,
both tags fresh), the second tag receives no band at all: `parseInt` truncates
2.9 to 2 when computing min/max, so the boundary array tops out at 2, while the
comparison uses the raw value 2.9, which exceeds every boundary. -/
theorem c1_counterexample :
    (assignBands defaultSettings [⟨.numStr 1, []⟩, ⟨.numStr (29/10), []⟩]).getD 1 none
        = none ∧
    tagCloud defaultSettings [⟨.numStr 1, []⟩, ⟨.numStr (29/10), []⟩] =
      [⟨.numStr 1, ["tag-cloud-small", "processed"]⟩, ⟨.numStr (29/10), []⟩] := by
  constructor <;> with_unfolding_all decide

/-- C1 (amended): for every non-empty set of fresh tags with integer weights and
a positive band count, every tag is assigned exactly one band index in
[0, bandCount − 1], and its output tag carries exactly that band class plus the
processed marker. -/
theorem c1_integer_weights_every_tag_banded (s : Settings) (tags : List Tag)
    (hall : ∀ t ∈ tags, ∃ z : ℤ, t.weightAttr = .numStr ((z : ℤ) : ℚ))
    (hfresh : ∀ t ∈ tags, hasClass t s.processedClassName = false)
    (hd : 0 < s.classes.length) :
    ∀ i, i < tags.length → ∃ j, j < s.classes.length ∧
      (assignBands s tags).getD i none = some j ∧
      (tagCloud s tags).getD i dTag =
        addBandClasses (tags.getD i dTag) (s.classes.getD j "") s.processedClassName := by
  intro i hi
  have hne : tags ≠ [] := by
    intro h
    rw [h] at hi
    simp at hi
  have hall' : ∀ t ∈ tags, ∃ q, t.weightAttr = .numStr q := fun t ht =>
    (hall t ht).elim fun z hz => ⟨((z : ℤ) : ℚ), hz⟩
  obtain ⟨mnq, mxq, hmn, hmx, hbounds, -, -, hle⟩ := minMax_context tags hne hall'
  have hrv := rangeValuesOf_getD_num s tags mnq mxq hd hmn hmx
  have hrs0 : 0 ≤ (mxq - mnq) / (s.classes.length : ℚ) :=
    div_nonneg (by linarith) (le_of_lt (Nat.cast_pos.mpr hd))
  have ht : tags.getD i dTag ∈ tags := getD_mem_of_lt dTag tags i hi
  obtain ⟨z, hz⟩ := hall _ ht
  have hwq : wq (tags.getD i dTag) = (z : ℚ) := wq_intCast _ z hz
  have hb1 : mnq ≤ (z : ℚ) := by
    rw [← hwq]
    exact (hbounds _ ht).1
  have hb2 : (z : ℚ) ≤ mxq := by
    rw [← hwq]
    exact (hbounds _ ht).2
  have hdq : ((s.classes.length : ℕ) : ℚ) ≠ 0 := Nat.cast_ne_zero.mpr (by omega)
  have h2 : ((s.classes.length : ℕ) : ℚ) * ((mxq - mnq) / ((s.classes.length : ℕ) : ℚ)) =
      mxq - mnq := by
    field_simp
  obtain ⟨j0, hj0d, hj0l, hj0r⟩ :=
    exists_bracket (fun j => mnq + (j : ℚ) * ((mxq - mnq) / (s.classes.length : ℚ)))
      ((z : ℤ) : ℚ) s.classes.length hd (by simpa using hb1) (by simp only []; linarith)
  have hp0 : matchesBand (rangeValuesOf s tags) (.num ((z : ℤ) : ℚ)) j0 = true := by
    rw [matchesBand_num _ _ _ _ j0 (hrv j0 (by omega)) (hrv (j0 + 1) (by omega))]
    simp only [Bool.and_eq_true, decide_eq_true_eq]
    exact ⟨hj0l, hj0r⟩
  obtain ⟨j, hfind⟩ : ∃ j, findFrom
      (matchesBand (rangeValuesOf s tags) (.num ((z : ℤ) : ℚ)))
      s.classes.length 0 = some j := by
    cases hfo : findFrom (matchesBand (rangeValuesOf s tags) (.num ((z : ℤ) : ℚ)))
        s.classes.length 0 with
    | some j => exact ⟨j, rfl⟩
    | none =>
        have hall0 := (findFrom_none_iff _ s.classes.length 0).mp hfo j0
          (by omega) (by omega)
        rw [hp0] at hall0
        cases hall0
  obtain ⟨-, hjlt, -, -⟩ := (findFrom_some_iff _ s.classes.length 0 j).mp hfind
  refine ⟨j, by omega, ?_, ?_⟩
  · rw [assignBands_getD s tags i hi, hz]
    simp only [toNumber]
    unfold bandIndex
    exact hfind
  · rw [tagCloud_getD s tags i hi, classifyTag_eq s _ _ (hfresh _ ht), hz]
    simp only [toNumber]
    unfold bandIndex
    rw [hfind]

/-- C1 witness: two fresh integer-weighted tags; the first one receives one band. -/
theorem c1_witness :
    ∃ j, j < defaultSettings.classes.length ∧
      (assignBands defaultSettings
          [⟨.numStr ((3 : ℤ) : ℚ), []⟩, ⟨.numStr ((10 : ℤ) : ℚ), []⟩]).getD 0 none =
        some j ∧
      (tagCloud defaultSettings
          [⟨.numStr ((3 : ℤ) : ℚ), []⟩, ⟨.numStr ((10 : ℤ) : ℚ), []⟩]).getD 0 dTag =
        addBandClasses
          ([⟨.numStr ((3 : ℤ) : ℚ), []⟩, ⟨.numStr ((10 : ℤ) : ℚ), []⟩].getD 0 dTag)
          (defaultSettings.classes.getD j "") defaultSettings.processedClassName :=
  c1_integer_weights_every_tag_banded defaultSettings
    [⟨.numStr ((3 : ℤ) : ℚ), []⟩, ⟨.numStr ((10 : ℤ) : ℚ), []⟩]
    (by
      intro t ht
      rcases List.mem_cons.mp ht with rfl | ht
      · exact ⟨3, rfl⟩
      · rcases List.mem_cons.mp ht with rfl | ht
        · exact ⟨10, rfl⟩
        · cases ht)
    (by decide) (by decide) 0 (by decide)

/-- C2: within one run, if two tags both receive bands and the first tag's numeric
weight is at most the second one's, then the first tag's band index is at most the
second one's. -/
theorem c2_weight_monotone_bands (s : Settings) (tags : List Tag)
    (ia ib ja jb : ℕ) (qa qb : ℚ)
    (hia : ia < tags.length) (hib : ib < tags.length)
    (ha : (tags.getD ia dTag).weightAttr = .numStr qa)
    (hb : (tags.getD ib dTag).weightAttr = .numStr qb)
    (hw : qa ≤ qb)
    (hja : (assignBands s tags).getD ia none = some ja)
    (hjb : (assignBands s tags).getD ib none = some jb) :
    ja ≤ jb := by
  rw [assignBands_getD s tags ia hia, ha] at hja
  rw [assignBands_getD s tags ib hib, hb] at hjb
  simp only [toNumber] at hja hjb
  unfold bandIndex at hja hjb
  obtain ⟨-, hjad, hpa, hmina⟩ := (findFrom_some_iff _ _ _ _).mp hja
  obtain ⟨-, hjbd, hpb, -⟩ := (findFrom_some_iff _ _ _ _).mp hjb
  by_cases hall : ∀ t ∈ tags, ∃ q, t.weightAttr = .numStr q
  · have hne : tags ≠ [] := by
      intro h
      rw [h] at hia
      simp at hia
    obtain ⟨mnq, mxq, hmn, hmx, -, -, -, hle⟩ := minMax_context tags hne hall
    have hd : 0 < s.classes.length := by omega
    have hrv := rangeValuesOf_getD_num s tags mnq mxq hd hmn hmx
    have hrs0 : 0 ≤ (mxq - mnq) / (s.classes.length : ℚ) :=
      div_nonneg (by linarith) (le_of_lt (Nat.cast_pos.mpr hd))
    have hA := hpa
    rw [matchesBand_num _ _ _ _ ja (hrv ja (by omega)) (hrv (ja + 1) (by omega))] at hA
    simp only [Bool.and_eq_true, decide_eq_true_eq] at hA
    have hB := hpb
    rw [matchesBand_num _ _ _ _ jb (hrv jb (by omega)) (hrv (jb + 1) (by omega))] at hB
    simp only [Bool.and_eq_true, decide_eq_true_eq] at hB
    by_contra hcon
    push_neg at hcon
    have hcast : ((jb + 1 : ℕ) : ℚ) ≤ ((ja : ℕ) : ℚ) := Nat.cast_le.mpr (by omega)
    have hmono : ((jb + 1 : ℕ) : ℚ) * ((mxq - mnq) / (s.classes.length : ℚ)) ≤
        ((ja : ℕ) : ℚ) * ((mxq - mnq) / (s.classes.length : ℚ)) :=
      mul_le_mul_of_nonneg_right hcast hrs0
    have hqq : qb = qa := le_antisymm (by linarith [hA.1, hB.2]) hw
    have hjbmatch : matchesBand (rangeValuesOf s tags) (.num qa) jb = true := by
      rw [matchesBand_num _ _ _ _ jb (hrv jb (by omega)) (hrv (jb + 1) (by omega))]
      simp only [Bool.and_eq_true, decide_eq_true_eq]
      constructor
      · linarith [hB.1]
      · linarith [hB.2]
    have hfalse := hmina jb (Nat.zero_le jb) hcon
    rw [hjbmatch] at hfalse
    cases hfalse
  · exfalso
    push_neg at hall
    obtain ⟨t, ht, hjq⟩ := hall
    have hjunk : t.weightAttr = .junk := by
      cases hattr : t.weightAttr with
      | numStr q => exact absurd hattr (hjq q)
      | junk => rfl
    have hnan := rangeValuesOf_nan s tags ⟨t, ht, hjunk⟩
    have hfalse := matchesBand_of_nan (rangeValuesOf s tags) (.num qa) ja (hnan ja)
    rw [hpa] at hfalse
    cases hfalse

/-- C2 witness: weights 10 and 40 land in bands 0 and 2, and the theorem gives
0 ≤ 2. -/
theorem c2_witness :
    (assignBands defaultSettings [⟨.numStr 10, []⟩, ⟨.numStr 40, []⟩]).getD 0 none =
      some 0 ∧
    (assignBands defaultSettings [⟨.numStr 10, []⟩, ⟨.numStr 40, []⟩]).getD 1 none =
      some 2 ∧
    (0 : ℕ) ≤ 2 :=
  ⟨by with_unfolding_all decide, by with_unfolding_all decide,
    c2_weight_monotone_bands defaultSettings [⟨.numStr 10, []⟩, ⟨.numStr 40, []⟩]
      0 1 0 2 10 40 (by decide) (by decide) rfl rfl (by norm_num)
      (by with_unfolding_all decide) (by with_unfolding_all decide)⟩

/-- C3 counterexample: with the equal weights 5 and 5 under the three default
classes, the tag carrying the maximum weight is assigned band 0, not band
bandCount − 1 = 2. -/
theorem c3_counterexample :
    assignBands defaultSettings [⟨.numStr 5, []⟩, ⟨.numStr 5, []⟩] =
      [some 0, some 0] ∧
    defaultSettings.classes.length - 1 = 2 :=
  ⟨by with_unfolding_all decide, rfl⟩

/-- C3 (amended): for integer weights that are not all equal (min < max) and a
positive band count, the tag carrying the minimum weight is assigned band 0 and
the tag carrying the maximum weight is assigned band bandCount − 1. -/
theorem c3_min_max_bands (s : Settings) (tags : List Tag) (im iM : ℕ) (zm zM : ℤ)
    (hall : ∀ t ∈ tags, ∃ z : ℤ, t.weightAttr = .numStr ((z : ℤ) : ℚ))
    (him : im < tags.length) (hiM : iM < tags.length)
    (ham : (tags.getD im dTag).weightAttr = .numStr ((zm : ℤ) : ℚ))
    (haM : (tags.getD iM dTag).weightAttr = .numStr ((zM : ℤ) : ℚ))
    (hmin : ∀ t ∈ tags, ∀ z : ℤ, t.weightAttr = .numStr ((z : ℤ) : ℚ) → zm ≤ z)
    (hmax : ∀ t ∈ tags, ∀ z : ℤ, t.weightAttr = .numStr ((z : ℤ) : ℚ) → z ≤ zM)
    (hlt : zm < zM) (hd : 0 < s.classes.length) :
    (assignBands s tags).getD im none = some 0 ∧
    (assignBands s tags).getD iM none = some (s.classes.length - 1) := by
  have hne : tags ≠ [] := by
    intro h
    rw [h] at him
    simp at him
  have hall' : ∀ t ∈ tags, ∃ q, t.weightAttr = .numStr q := fun t ht =>
    (hall t ht).elim fun z hz => ⟨((z : ℤ) : ℚ), hz⟩
  obtain ⟨mnq, mxq, hmn, hmx, hbounds, hattmn, hattmx, hle⟩ :=
    minMax_context tags hne hall'
  have hmnq : mnq = ((zm : ℤ) : ℚ) := by
    obtain ⟨t1, ht1, hw1⟩ := hattmn
    obtain ⟨z1, hz1⟩ := hall t1 ht1
    have hwq1 : wq t1 = (z1 : ℚ) := wq_intCast t1 z1 hz1
    have hz1m : ((zm : ℤ) : ℚ) ≤ ((z1 : ℤ) : ℚ) :=
      Int.cast_le.mpr (hmin t1 ht1 z1 hz1)
    have h1 : ((zm : ℤ) : ℚ) ≤ mnq := by
      rw [← hw1, hwq1]
      exact hz1m
    have h2 : mnq ≤ ((zm : ℤ) : ℚ) := by
      have hm := (hbounds _ (getD_mem_of_lt dTag tags im him)).1
      rw [wq_intCast _ zm ham] at hm
      exact hm
    exact le_antisymm h2 h1
  have hmxq : mxq = ((zM : ℤ) : ℚ) := by
    obtain ⟨t1, ht1, hw1⟩ := hattmx
    obtain ⟨z1, hz1⟩ := hall t1 ht1
    have hwq1 : wq t1 = (z1 : ℚ) := wq_intCast t1 z1 hz1
    have hz1M : ((z1 : ℤ) : ℚ) ≤ ((zM : ℤ) : ℚ) :=
      Int.cast_le.mpr (hmax t1 ht1 z1 hz1)
    have h1 : mxq ≤ ((zM : ℤ) : ℚ) := by
      rw [← hw1, hwq1]
      exact hz1M
    have h2 : ((zM : ℤ) : ℚ) ≤ mxq := by
      have hm := (hbounds _ (getD_mem_of_lt dTag tags iM hiM)).2
      rw [wq_intCast _ zM haM] at hm
      exact hm
    exact le_antisymm h1 h2
  have hrv := rangeValuesOf_getD_num s tags mnq mxq hd hmn hmx
  have hltq : mnq < mxq := by
    rw [hmnq, hmxq]
    exact_mod_cast hlt
  have hrspos : 0 < (mxq - mnq) / (s.classes.length : ℚ) :=
    div_pos (by linarith) (Nat.cast_pos.mpr hd)
  have hdq : ((s.classes.length : ℕ) : ℚ) ≠ 0 := Nat.cast_ne_zero.mpr (by omega)
  have h2 : ((s.classes.length : ℕ) : ℚ) *
      ((mxq - mnq) / ((s.classes.length : ℕ) : ℚ)) = mxq - mnq := by
    field_simp
  constructor
  · rw [assignBands_getD s tags im him, ham]
    simp only [toNumber]
    unfold bandIndex
    apply findFrom_first _ _ _ hd
    rw [matchesBand_num _ _ _ _ 0 (hrv 0 (by omega)) (hrv 1 (by omega))]
    simp only [Bool.and_eq_true, decide_eq_true_eq]
    constructor
    · have hz0 : mnq + ((0 : ℕ) : ℚ) * ((mxq - mnq) / (s.classes.length : ℚ)) = mnq := by
        norm_num
      rw [hz0, hmnq]
    · have hz1 : mnq + ((1 : ℕ) : ℚ) * ((mxq - mnq) / (s.classes.length : ℚ)) =
          mnq + (mxq - mnq) / (s.classes.length : ℚ) := by
        norm_num
      rw [hz1, ← hmnq]
      linarith
  · rw [assignBands_getD s tags iM hiM, haM]
    simp only [toNumber]
    unfold bandIndex
    apply (findFrom_some_iff _ _ _ _).mpr
    refine ⟨by omega, by omega, ?_, ?_⟩
    · rw [matchesBand_num _ _ _ _ (s.classes.length - 1)
        (hrv (s.classes.length - 1) (by omega))
        (hrv (s.classes.length - 1 + 1) (by omega))]
      simp only [Bool.and_eq_true, decide_eq_true_eq]
      have hcast : ((s.classes.length - 1 + 1 : ℕ) : ℚ) =
          ((s.classes.length : ℕ) : ℚ) := Nat.cast_inj.mpr (by omega)
      refine ⟨?_, ?_⟩
      · have hle1 : ((s.classes.length - 1 : ℕ) : ℚ) ≤ ((s.classes.length : ℕ) : ℚ) :=
          Nat.cast_le.mpr (by omega)
        have hmul := mul_le_mul_of_nonneg_right hle1 (le_of_lt hrspos)
        rw [← hmxq]
        linarith
      · rw [hcast, ← hmxq]
        linarith
    · intro i hi0 hik
      have hlt2 : ((i + 1 : ℕ) : ℚ) < ((s.classes.length : ℕ) : ℚ) :=
        Nat.cast_lt.mpr (by omega)
      have hmul := mul_lt_mul_of_pos_right hlt2 hrspos
      have hnb : ¬ (((zM : ℤ) : ℚ) ≤
          mnq + ((i + 1 : ℕ) : ℚ) * ((mxq - mnq) / (s.classes.length : ℚ))) := by
        intro hcontra
        rw [← hmxq] at hcontra
        linarith
      rw [matchesBand_num _ _ _ _ i (hrv i (by omega)) (hrv (i + 1) (by omega))]
      rw [decide_eq_false hnb, Bool.and_false]

/-- C3 witness: integer weights 2 and 7 under the default classes — the minimum
lands in band 0 and the maximum in band 2. -/
theorem c3_witness :
    (assignBands defaultSettings
        [⟨.numStr ((2 : ℤ) : ℚ), []⟩, ⟨.numStr ((7 : ℤ) : ℚ), []⟩]).getD 0 none =
      some 0 ∧
    (assignBands defaultSettings
        [⟨.numStr ((2 : ℤ) : ℚ), []⟩, ⟨.numStr ((7 : ℤ) : ℚ), []⟩]).getD 1 none =
      some (defaultSettings.classes.length - 1) :=
  c3_min_max_bands defaultSettings
    [⟨.numStr ((2 : ℤ) : ℚ), []⟩, ⟨.numStr ((7 : ℤ) : ℚ), []⟩] 0 1 2 7
    (by
      intro t ht
      rcases List.mem_cons.mp ht with rfl | ht
      · exact ⟨2, rfl⟩
      · rcases List.mem_cons.mp ht with rfl | ht
        · exact ⟨7, rfl⟩
        · cases ht)
    (by decide) (by decide) rfl rfl
    (by
      intro t ht z hz
      rcases List.mem_cons.mp ht with rfl | ht
      · simp only [AttrVal.numStr.injEq] at hz
        have hz2 : (2 : ℤ) = z := by exact_mod_cast hz
        omega
      · rcases List.mem_cons.mp ht with rfl | ht
        · simp only [AttrVal.numStr.injEq] at hz
          have hz7 : (7 : ℤ) = z := by exact_mod_cast hz
          omega
        · cases ht)
    (by
      intro t ht z hz
      rcases List.mem_cons.mp ht with rfl | ht
      · simp only [AttrVal.numStr.injEq] at hz
        have hz2 : (2 : ℤ) = z := by exact_mod_cast hz
        omega
      · rcases List.mem_cons.mp ht with rfl | ht
        · simp only [AttrVal.numStr.injEq] at hz
          have hz7 : (7 : ℤ) = z := by exact_mod_cast hz
          omega
        · cases ht)
    (by norm_num) (by decide)

/-- C4 counterexample: with the uniform weights 5, 5, 5, the first tag's weight
equals the interior boundary value at index 2, yet it is assigned band 0, not
band 1. -/
theorem c4_counterexample :
    (rangeValuesOf defaultSettings
        [⟨.numStr 5, []⟩, ⟨.numStr 5, []⟩, ⟨.numStr 5, []⟩]).getD 2 .nan = .num 5 ∧
    (assignBands defaultSettings
        [⟨.numStr 5, []⟩, ⟨.numStr 5, []⟩, ⟨.numStr 5, []⟩]).getD 0 none = some 0 := by
  constructor <;> with_unfolding_all decide

/-- C4 (amended): in a run whose computed minimum weight is a number strictly
below its computed maximum, a tag whose numeric weight equals the interior boundary value
at index j (0 < j < bandCount) is assigned the lower adjacent band j − 1: the
ascending scan matches band j − 1 first. -/
theorem c4_boundary_weight_lower_band (s : Settings) (tags : List Tag) (i j : ℕ)
    (q mnq mxq : ℚ)
    (hi : i < tags.length)
    (hattr : (tags.getD i dTag).weightAttr = .numStr q)
    (hj0 : 0 < j) (hjd : j < s.classes.length)
    (hmn : jsMinList (weights tags) = .num mnq)
    (hmx : jsMaxList (weights tags) = .num mxq)
    (hlt : mnq < mxq)
    (hbd : (rangeValuesOf s tags).getD j .nan = .num q) :
    (assignBands s tags).getD i none = some (j - 1) := by
  have hd : 0 < s.classes.length := by omega
  have hrv := rangeValuesOf_getD_num s tags mnq mxq hd hmn hmx
  have hrspos : 0 < (mxq - mnq) / (s.classes.length : ℚ) :=
    div_pos (by linarith) (Nat.cast_pos.mpr hd)
  have hq : q = mnq + (j : ℚ) * ((mxq - mnq) / (s.classes.length : ℚ)) := by
    have hval := hrv j (by omega)
    rw [hbd] at hval
    exact JNum.num.inj hval
  rw [assignBands_getD s tags i hi, hattr]
  simp only [toNumber]
  unfold bandIndex
  apply (findFrom_some_iff _ _ _ _).mpr
  have hcast : ((j - 1 + 1 : ℕ) : ℚ) = ((j : ℕ) : ℚ) := Nat.cast_inj.mpr (by omega)
  refine ⟨by omega, by omega, ?_, ?_⟩
  · rw [matchesBand_num _ _ _ _ (j - 1) (hrv (j - 1) (by omega))
      (hrv (j - 1 + 1) (by omega))]
    simp only [Bool.and_eq_true, decide_eq_true_eq]
    constructor
    · have hle1 : ((j - 1 : ℕ) : ℚ) ≤ ((j : ℕ) : ℚ) := Nat.cast_le.mpr (by omega)
      have hmul := mul_le_mul_of_nonneg_right hle1 (le_of_lt hrspos)
      rw [hq]
      linarith
    · rw [hcast, ← hq]
  · intro i' hi'0 hi'k
    have hlt2 : ((i' + 1 : ℕ) : ℚ) < ((j : ℕ) : ℚ) := Nat.cast_lt.mpr (by omega)
    have hmul := mul_lt_mul_of_pos_right hlt2 hrspos
    have hnb : ¬ (q ≤ mnq + ((i' + 1 : ℕ) : ℚ) *
        ((mxq - mnq) / (s.classes.length : ℚ))) := by
      rw [hq]
      intro hcontra
      linarith
    rw [matchesBand_num _ _ _ _ i' (hrv i' (by omega)) (hrv (i' + 1) (by omega))]
    rw [decide_eq_false hnb, Bool.and_false]

/-- C4 witness: weights 0, 1, 3 give boundaries 0, 1, 2, 3; the tag of weight 1
sits exactly on boundary 1 and is assigned band 0. -/
theorem c4_witness :
    (assignBands defaultSettings
        [⟨.numStr 0, []⟩, ⟨.numStr 1, []⟩, ⟨.numStr 3, []⟩]).getD 1 none = some 0 :=
  c4_boundary_weight_lower_band defaultSettings
    [⟨.numStr 0, []⟩, ⟨.numStr 1, []⟩, ⟨.numStr 3, []⟩] 1 1 1 0 3
    (by decide) rfl (by decide) (by decide)
    (by with_unfolding_all decide) (by with_unfolding_all decide)
    (by norm_num) (by with_unfolding_all decide)

/-- C5 counterexample: with all weights equal to 2.9, the boundaries collapse to
the truncated value 2 — not to the common weight — and no tag matches any band,
so no tag is assigned band 0. -/
theorem c5_counterexample :
    assignBands defaultSettings [⟨.numStr (29/10), []⟩, ⟨.numStr (29/10), []⟩] =
      [none, none] ∧
    (rangeValuesOf defaultSettings
        [⟨.numStr (29/10), []⟩, ⟨.numStr (29/10), []⟩]).getD 0 .nan = .num 2 := by
  constructor <;> with_unfolding_all decide

/-- C5 (amended): when every weight is the same integer and the band count is
positive, every boundary collapses to that value (division is total, the range
size is 0) and every tag is assigned band 0, the first ascending match. -/
theorem c5_uniform_integer_weights_band_zero (s : Settings) (tags : List Tag)
    (z : ℤ) (hne : tags ≠ [])
    (hall : ∀ t ∈ tags, t.weightAttr = .numStr ((z : ℤ) : ℚ))
    (hd : 0 < s.classes.length) :
    (∀ j, j ≤ s.classes.length →
      (rangeValuesOf s tags).getD j .nan = .num ((z : ℤ) : ℚ)) ∧
    (∀ b ∈ assignBands s tags, b = some 0) := by
  have hall' : ∀ t ∈ tags, ∃ q, t.weightAttr = .numStr q := fun t ht =>
    ⟨((z : ℤ) : ℚ), hall t ht⟩
  obtain ⟨mnq, mxq, hmn, hmx, hbounds, hattmn, hattmx, -⟩ :=
    minMax_context tags hne hall'
  have hwqz : ∀ t ∈ tags, wq t = (z : ℚ) := fun t ht => wq_intCast t z (hall t ht)
  have hmnq : mnq = ((z : ℤ) : ℚ) := by
    obtain ⟨t1, ht1, hw1⟩ := hattmn
    rw [← hw1]
    exact hwqz t1 ht1
  have hmxq : mxq = ((z : ℤ) : ℚ) := by
    obtain ⟨t1, ht1, hw1⟩ := hattmx
    rw [← hw1]
    exact hwqz t1 ht1
  have hrv := rangeValuesOf_getD_num s tags mnq mxq hd hmn hmx
  have hcollapse : ∀ j, j ≤ s.classes.length →
      (rangeValuesOf s tags).getD j .nan = .num ((z : ℤ) : ℚ) := by
    intro j hj
    rw [hrv j hj, hmnq, hmxq]
    congr 1
    ring
  refine ⟨hcollapse, ?_⟩
  intro b hb
  unfold assignBands at hb
  rcases List.mem_map.mp hb with ⟨t, ht, rfl⟩
  rw [hall t ht]
  simp only [toNumber]
  unfold bandIndex
  apply findFrom_first _ _ _ hd
  rw [matchesBand_num _ _ _ _ 0 (hcollapse 0 (by omega)) (hcollapse 1 (by omega))]
  simp

/-- C5 witness: two tags of integer weight 4 — all four boundaries are 4 and both
tags get band 0. -/
theorem c5_witness :
    (∀ j, j ≤ defaultSettings.classes.length →
      (rangeValuesOf defaultSettings
          [⟨.numStr ((4 : ℤ) : ℚ), []⟩, ⟨.numStr ((4 : ℤ) : ℚ), []⟩]).getD j .nan =
        .num ((4 : ℤ) : ℚ)) ∧
    (∀ b ∈ assignBands defaultSettings
        [⟨.numStr ((4 : ℤ) : ℚ), []⟩, ⟨.numStr ((4 : ℤ) : ℚ), []⟩], b = some 0) :=
  c5_uniform_integer_weights_band_zero defaultSettings
    [⟨.numStr ((4 : ℤ) : ℚ), []⟩, ⟨.numStr ((4 : ℤ) : ℚ), []⟩] 4
    (by simp)
    (by
      intro t ht
      rcases List.mem_cons.mp ht with rfl | ht
      · rfl
      · rcases List.mem_cons.mp ht with rfl | ht
        · rfl
        · cases ht)
    (by decide)

end TagCloud
